/-
Verification of the waveform ingestion & timing/energy extraction engine.

This file gives a shallow embedding, over exact rationals, of the core
functions of the analysis pipeline:

* `get_dcfd_time`   — the digital constant-fraction discriminator
                      (analysis/utils/physics.py, `get_dcfd_time`)
* `categorize_events` — the clean/clipped/noise event classifier
                      (analysis/process_run.py, `categorize_events`)
* `cut_for` / `calculate_cuts` — the per-channel amplitude cuts
                      (analysis/process_run.py, `calculate_cuts`)
* `read_data` / `decodeCapture` — the WFM capture decoder's frame logic
                      and error paths (analysis/utils/wfm.py)
* `solve_jitter`    — the constrained pair-variance decomposition
                      (analysis/process_run.py, `solve_jitter`)
* `analyze_run_action` / `analyze_jitter_proceeds` — the per-run
                      control flow around missing channels.

Python floats are modelled by `ℚ`, NaN results by `Option`/`Except`, and
the scipy `lsq_linear` call by its mathematical contract (a minimiser of
the residual cost over the nonnegative orthant).
-/
import Mathlib
namespace Polarimeter
/-! ### Argmin over a list of rationals

`np.argmin` returns the index of the first occurrence of the minimum.
`argminAux l i b bv` scans `l`, where `i` is the index of the head of `l`
in the original list and `(b, bv)` is the best index/value so far; the
strict `<` in the update keeps the first occurrence, as numpy does. -/

def argminAux : List ℚ → ℕ → ℕ → ℚ → ℕ × ℚ
  | [], _, b, bv => (b, bv)
  | v :: t, i, b, bv =>
      if v < bv then argminAux t (i + 1) i v else argminAux t (i + 1) b bv
def argminIdx : List ℚ → ℕ
  | [] => 0
  | v :: t => (argminAux t 1 0 v).1
/-! ### Digital constant-fraction discriminator

Shallow embedding of `get_dcfd_time` from `analysis/utils/physics.py`.
`np.nan` is modelled by `none`.  The float literal `-0.0005` (the noise
floor, -0.5 mV) is the rational `-1/2000`.  `np.where(cond)[0]` over the
pre-peak region is modelled by filtering `List.range` with the same
predicate, and `candidates[-1]` by `getLast?`. -/

def get_dcfd_time (time waveform : List ℚ) (fraction : ℚ) : Option ℚ :=
  let idx_peak := argminIdx waveform
  let v_peak := waveform.getD idx_peak 0
  if -1/2000 < v_peak then none
  else
    let v_target := fraction * v_peak
    let search := waveform.take idx_peak
    let below := (List.range search.length).filter
      fun j => decide (search.getD j 0 < v_target)
    if below.isEmpty then none
    else
      let above := (List.range search.length).filter
        fun j => decide (v_target < search.getD j 0)
      if above.isEmpty then none
      else
        let i := above.getLast?.getD 0
        if search.length ≤ i + 1 then none
        else
          let t_i := time.getD i 0
          let t_next := time.getD (i + 1) 0
          let v_i := waveform.getD i 0
          let v_next := waveform.getD (i + 1) 0
          let slope := v_next - v_i
          if slope = 0 then some t_i
          else some (t_i + (t_next - t_i) * (v_target - v_i) / slope)
/-! ### Event classifier

Shallow embedding of `categorize_events` from `analysis/process_run.py`.
A channel of a run carries its per-event traces, per-event amplitudes and
its cut value.  The Python loop appends each `i` of `range(num_events)` to
exactly one of the three lists, checking the positive-noise condition first
(`np.max(trace) > threshold`, i.e. some sample exceeds the threshold) and
the amplitude-below-cut condition second; appending the increasing `i` to a
list is the same as filtering `range num_events` by that list's condition.
The threshold parameter stands for `config.POSITIVE_NOISE_THRESHOLD`
(= 3/100 V in `analysis/config.py`). -/

structure ChannelData where
  traces : List (List ℚ)
  amps : List ℚ
  cut : ℚ
def eventIsNoise (chans : List ChannelData) (thr : ℚ) (i : ℕ) : Bool :=
  chans.any fun c => (c.traces.getD i []).any fun v => decide (thr < v)
def eventIsClipped (chans : List ChannelData) (i : ℕ) : Bool :=
  chans.any fun c => decide (c.amps.getD i 0 < c.cut)
def categorize_events (chans : List ChannelData) (thr : ℚ) (num_events : ℕ) :
    List ℕ × List ℕ × List ℕ :=
  ((List.range num_events).filter
      (fun i => !eventIsNoise chans thr i && !eventIsClipped chans i),
   (List.range num_events).filter
      (fun i => !eventIsNoise chans thr i && eventIsClipped chans i),
   (List.range num_events).filter
      (fun i => eventIsNoise chans thr i))
/-! ### Per-channel amplitude cuts

Shallow embedding of `calculate_cuts` from `analysis/process_run.py`.
`np.histogram(amps, bins=100, range=(0, 0.5))` counts, for bin `k`,
the amplitudes in `[k/200, (k+1)/200)` — the last bin also includes the
right edge `1/2`; values outside `[0, 1/2]` are discarded.  `np.argmax`
returns the first index of the maximum count.  The detector position is
the first index of the channel's digit in the configuration string, `-1`
when absent; `config.DEFAULT_CUT_THRESHOLD_MV / 1000.0` is the floor
`1/20` V. -/

def binCount (amps : List ℚ) (k : ℕ) : ℕ :=
  amps.countP fun a => decide ((k : ℚ)/200 ≤ a ∧
    (a < ((k : ℚ) + 1)/200 ∨ (k = 99 ∧ a ≤ 1/2)))
def histCounts (amps : List ℚ) : List ℕ :=
  (List.range 100).map (binCount amps)
def argmaxAux : List ℕ → ℕ → ℕ → ℕ → ℕ × ℕ
  | [], _, b, bv => (b, bv)
  | v :: t, i, b, bv =>
      if bv < v then argmaxAux t (i + 1) i v else argmaxAux t (i + 1) b bv
def argmaxIdx : List ℕ → ℕ
  | [] => 0
  | v :: t => (argmaxAux t 1 0 v).1
def binCenter (k : ℕ) : ℚ := ((k : ℚ)/200 + ((k : ℚ) + 1)/200)/2
def cut_for (amps : List ℚ) (position : ℤ) : ℚ :=
  if position = 0 ∨ position = 3 then
    max (1/20) (9/10 * binCenter (argmaxIdx (histCounts amps)))
  else 1/20
def positionOf (ch : ℕ) (cfg : List ℕ) : ℤ :=
  match cfg.findIdx? (· = ch) with
  | some p => (p : ℤ)
  | none => -1
def calculate_cuts (amplitudes : List (ℕ × List ℚ)) (cfg : List ℕ) :
    List (ℕ × ℚ) :=
  amplitudes.map fun pr => (pr.1, cut_for pr.2 (positionOf pr.1 cfg))
/-! ### Waveform decoder

Shallow embedding of the WFM reader from `analysis/utils/wfm.py`.  The
header fields relevant to `read_data` are gathered in `WfmHeader`; the raw
payload is the list of already-parsed sample codes (integers), of which
`np.fromfile(f, dtype, count=total_points)` reads at most `total_points`
and at most what the file holds (`List.take`).  A truncated file keeps
`raw_size / time_size` whole frames (`ValueError`, modelled `shortFile`,
when that is zero); `np.reshape (n, k)` of an exact-size array is the list
of its `n` consecutive chunks of length `k`; `volts = code * scale +
offset` elementwise and `time[k] = k * scale + offset`.

`_parse_header` raises `ValueError` ("Unknown byte order", modelled
`formatError`) unless the two marker bytes are `0x0f 0x0f` (little endian)
or `0xf0 0xf0` (big endian).  The sample-format code is looked up in
`{7: int8, 0: int16, 1: int32, 4: float32}` with *default* `int16` — an
unrecognized code raises nothing (`dtype_map.get(self.data_format,
np.int16)` at wfm.py lines 96-102). -/

structure WfmHeader where
  numFrames : ℕ
  timeSize : ℕ
  voltScale : ℚ
  voltOffset : ℚ
  timeScale : ℚ
  timeOffset : ℚ
inductive DecodeErr where
  | formatError : DecodeErr
  | shortFile : DecodeErr
deriving DecidableEq
inductive Endian where
  | little : Endian
  | big : Endian
deriving DecidableEq
inductive NpDtype where
  | int8 : NpDtype
  | int16 : NpDtype
  | int32 : NpDtype
  | float32 : NpDtype
deriving DecidableEq
def checkByteOrder (b0 b1 : ℕ) : Except DecodeErr Endian :=
  if b0 = 15 ∧ b1 = 15 then Except.ok Endian.little
  else if b0 = 240 ∧ b1 = 240 then Except.ok Endian.big
  else Except.error DecodeErr.formatError
def npDtypeOf (fmt : ℤ) : NpDtype :=
  if fmt = 7 then NpDtype.int8
  else if fmt = 0 then NpDtype.int16
  else if fmt = 1 then NpDtype.int32
  else if fmt = 4 then NpDtype.float32
  else NpDtype.int16
def convVolt (h : WfmHeader) (code : ℤ) : ℚ :=
  (code : ℚ) * h.voltScale + h.voltOffset
def timeAxis (h : WfmHeader) : List ℚ :=
  (List.range h.timeSize).map fun k => (k : ℚ) * h.timeScale + h.timeOffset
def reshape (n k : ℕ) (l : List ℤ) : List (List ℤ) :=
  (List.range n).map fun i => (l.drop (i * k)).take k
def read_data (h : WfmHeader) (raw : List ℤ) :
    Except DecodeErr (List ℚ × List (List ℚ)) :=
  let total := h.numFrames * h.timeSize
  let rawData := raw.take total
  if rawData.length ≠ total then
    let framesRead := rawData.length / h.timeSize
    if framesRead = 0 then Except.error DecodeErr.shortFile
    else Except.ok (timeAxis h,
      (reshape framesRead h.timeSize (rawData.take (framesRead * h.timeSize))).map
        (List.map (convVolt h)))
  else Except.ok (timeAxis h,
    (reshape h.numFrames h.timeSize rawData).map (List.map (convVolt h)))
def decodeCapture (b0 b1 : ℕ) (fmt : ℤ) (h : WfmHeader) (raw : List ℤ) :
    Except DecodeErr (Endian × NpDtype × List ℚ × List (List ℚ)) :=
  match checkByteOrder b0 b1 with
  | Except.error e => Except.error e
  | Except.ok en =>
    match read_data h raw with
    | Except.error e => Except.error e
    | Except.ok (t, frames) => Except.ok (en, npDtypeOf fmt, t, frames)
/-! ### Jitter decomposition solver

Shallow embedding of `solve_jitter` from `analysis/process_run.py`.
`pairsA` is the fixed 6x4 design matrix (one row per channel pair, in the
order 1-2, 1-3, 1-4, 2-3, 2-4, 3-4).  A NaN pair variance is `none`;
`valid_mask = ~np.isnan(y)` keeps the rows whose entry `isSome`.  The
call `lsq_linear(A[valid_mask], y[valid_mask], bounds=(0, np.inf))` is an
iterative numerical optimizer; it is modelled by its mathematical
contract: `IsNNLSSol V y x` says `x` lies in the feasible region
(componentwise nonnegative) and minimises the summed squared residual
`costQ V y` over that region; `IsLSSol V y x` is the unconstrained
least-squares characterisation.  `solve_jitter` takes the solver as an
oracle argument `lsq` and returns `none` for every channel (the
`np.full(4, np.nan)` result) when fewer than 4 pair variances are valid,
and otherwise the square roots of the solved variances. -/

def pairsA : Fin 6 → Fin 4 → ℚ :=
  ![![1, 1, 0, 0], ![1, 0, 1, 0], ![1, 0, 0, 1],
    ![0, 1, 1, 0], ![0, 1, 0, 1], ![0, 0, 1, 1]]
def validIdx (pv : Fin 6 → Option ℚ) : Finset (Fin 6) :=
  Finset.univ.filter (fun i => (pv i).isSome)
def yOf (pv : Fin 6 → Option ℚ) (i : Fin 6) : ℚ := (pv i).getD 0
def costQ (V : Finset (Fin 6)) (y : Fin 6 → ℚ) (x : Fin 4 → ℚ) : ℚ :=
  ∑ i ∈ V, ((∑ j, pairsA i j * x j) - y i)^2
def IsLSSol (V : Finset (Fin 6)) (y : Fin 6 → ℚ) (x : Fin 4 → ℚ) : Prop :=
  ∀ z, costQ V y x ≤ costQ V y z
def IsNNLSSol (V : Finset (Fin 6)) (y : Fin 6 → ℚ) (x : Fin 4 → ℚ) : Prop :=
  (∀ j, 0 ≤ x j) ∧ ∀ z, (∀ j, 0 ≤ z j) → costQ V y x ≤ costQ V y z
noncomputable def solve_jitter
    (lsq : Finset (Fin 6) → (Fin 6 → ℚ) → (Fin 4 → ℚ))
    (pv : Fin 6 → Option ℚ) : Fin 4 → Option ℝ :=
  if (validIdx pv).card < 4 then fun _ => none
  else fun j => some (Real.sqrt ((lsq (validIdx pv) (yOf pv) j : ℚ) : ℝ))
/-! ### Clamping analysis for the constrained solve

`bump0 x s` .. `bump3 x s` perturb one coordinate of `x` by `s`; the cost
along such a line is a quadratic with leading coefficient 3 (each channel
appears in three rows of `pairsA`), which lets the Karush-Kuhn-Tucker
conditions be read off from the minimality hypotheses. -/

def bump0 (x : Fin 4 → ℚ) (s : ℚ) : Fin 4 → ℚ := ![x 0 + s, x 1, x 2, x 3]
def bump1 (x : Fin 4 → ℚ) (s : ℚ) : Fin 4 → ℚ := ![x 0, x 1 + s, x 2, x 3]
def bump2 (x : Fin 4 → ℚ) (s : ℚ) : Fin 4 → ℚ := ![x 0, x 1, x 2 + s, x 3]
def bump3 (x : Fin 4 → ℚ) (s : ℚ) : Fin 4 → ℚ := ![x 0, x 1, x 2, x 3 + s]
/-! ### Per-run control flow around missing channels

`analyze_run` (analysis/process_run.py) skips a run only when *no* data
files are found; with exactly one channel it takes the single-detector
plotting path; with two or more channels it proceeds to the cross-channel
analysis (cuts, classification, timing, jitter solve), printing only a
warning when fewer than the expected 4 channels are present (lines
276-281).  `analyze_jitter` (analysis/analyse_jitter.py lines 164-169)
instead returns before any analysis unless all of channels 1..4 have a
capture file. -/

inductive RunAction where
  | skipped : RunAction
  | singleDetector : RunAction
  | crossChannel : RunAction
deriving DecidableEq
def analyze_run_action (channels : List ℕ) : RunAction :=
  if channels.isEmpty then RunAction.skipped
  else if channels.length = 1 then RunAction.singleDetector
  else RunAction.crossChannel
def analyze_jitter_proceeds (present : List ℕ) : Bool :=
  [1, 2, 3, 4].all fun ch => present.contains ch
lemma argminAux_snd_le (l : List ℚ) :
    ∀ (i b : ℕ) (bv : ℚ), (argminAux l i b bv).2 ≤ bv ∧
      ∀ v ∈ l, (argminAux l i b bv).2 ≤ v := by
  induction l with
  | nil => intro i b bv; exact ⟨le_refl _, by simp⟩
  | cons v t ih =>
      intro i b bv
      simp only [argminAux]
      by_cases h : v < bv
      · simp only [h, if_true]
        obtain ⟨h1, h2⟩ := ih (i + 1) i v
        exact ⟨le_trans h1 (le_of_lt h), by
          intro w hw
          rcases List.mem_cons.mp hw with hw | hw
          · exact hw ▸ h1
          · exact h2 w hw⟩
      · simp only [h, if_false]
        obtain ⟨h1, h2⟩ := ih (i + 1) b bv
        refine ⟨h1, ?_⟩
        intro w hw
        rcases List.mem_cons.mp hw with hw | hw
        · exact hw ▸ le_trans h1 (not_lt.mp h)
        · exact h2 w hw
lemma argminAux_fst_spec (l : List ℚ) :
    ∀ (i b : ℕ) (bv : ℚ),
      ((argminAux l i b bv).1 = b ∧ (argminAux l i b bv).2 = bv) ∨
      (∃ j, j < l.length ∧ (argminAux l i b bv).1 = i + j ∧
        l.getD j 0 = (argminAux l i b bv).2) := by
  induction l with
  | nil => intro i b bv; exact Or.inl ⟨rfl, rfl⟩
  | cons v t ih =>
      intro i b bv
      simp only [argminAux]
      by_cases h : v < bv
      · simp only [h, if_true]
        rcases ih (i + 1) i v with ⟨h1, h2⟩ | ⟨j, hj, h1, h2⟩
        · exact Or.inr ⟨0, by simp, by simpa using h1, by simpa using h2.symm⟩
        · exact Or.inr ⟨j + 1, by simpa using hj, by omega, by simpa using h2⟩
      · simp only [h, if_false]
        rcases ih (i + 1) b bv with ⟨h1, h2⟩ | ⟨j, hj, h1, h2⟩
        · exact Or.inl ⟨h1, h2⟩
        · exact Or.inr ⟨j + 1, by simpa using hj, by omega, by simpa using h2⟩
lemma argminIdx_lt_length (l : List ℚ) (h : l ≠ []) : argminIdx l < l.length := by
  match l with
  | [] => exact absurd rfl h
  | v :: t =>
      simp only [argminIdx]
      rcases argminAux_fst_spec t 1 0 v with ⟨h1, _⟩ | ⟨j, hj, h1, _⟩
      · simp [h1]
      · simp only [h1, List.length_cons]
        omega
lemma argminIdx_getD (l : List ℚ) (h : l ≠ []) :
    l.getD (argminIdx l) 0 = (match l with
      | [] => 0
      | v :: t => (argminAux t 1 0 v).2) := by
  match l with
  | [] => exact absurd rfl h
  | v :: t =>
      simp only [argminIdx]
      rcases argminAux_fst_spec t 1 0 v with ⟨h1, h2⟩ | ⟨j, hj, h1, h2⟩
      · simp [h1, h2]
      · rw [h1]
        show (v :: t).getD (1 + j) 0 = _
        rw [Nat.add_comm 1 j]
        simpa using h2
lemma argminIdx_le (l : List ℚ) (h : l ≠ []) :
    ∀ v ∈ l, l.getD (argminIdx l) 0 ≤ v := by
  match l with
  | [] => exact absurd rfl h
  | v :: t =>
      intro w hw
      rw [argminIdx_getD _ h]
      obtain ⟨h1, h2⟩ := argminAux_snd_le t 1 0 v
      rcases List.mem_cons.mp hw with hw | hw
      · exact hw ▸ h1
      · exact h2 w hw
/-! ### Helper lemmas about `getLast?` of a filtered range -/

lemma getLast?_le_of_pairwise_lt (l : List ℕ) (hp : l.Pairwise (· < ·)) (i : ℕ)
    (h : l.getLast? = some i) : ∀ x ∈ l, x ≤ i := by
  induction l with
  | nil => simp at h
  | cons a t ih =>
      match t with
      | [] =>
          simp only [List.getLast?_singleton, Option.some.injEq] at h
          simp [h]
      | b :: t2 =>
          rw [List.getLast?_cons_cons] at h
          intro x hx
          rcases List.mem_cons.mp hx with hx | hx
          · subst hx
            have hmem : i ∈ b :: t2 :=
              List.mem_of_mem_getLast? (by simp [h])
            have := List.rel_of_pairwise_cons hp hmem
            exact le_of_lt this
          · exact ih (List.Pairwise.of_cons hp) h x hx
lemma getLast?_eq_of_max (l : List ℕ) (hp : l.Pairwise (· < ·)) (i : ℕ)
    (hmem : i ∈ l) (hmax : ∀ x ∈ l, x ≤ i) : l.getLast? = some i := by
  induction l with
  | nil => simp at hmem
  | cons a t ih =>
      match t with
      | [] =>
          simp only [List.mem_singleton] at hmem
          simp [hmem]
      | b :: t2 =>
          rw [List.getLast?_cons_cons]
          rcases List.mem_cons.mp hmem with hmem | hmem
          · exfalso
            have hb : a < b := List.rel_of_pairwise_cons hp (List.mem_cons_self b t2)
            have := hmax b (List.mem_cons_of_mem a (List.mem_cons_self b t2))
            omega
          · exact ih (List.Pairwise.of_cons hp) hmem
              (fun x hx => hmax x (List.mem_cons_of_mem a hx))
lemma getLast?_filter_range (n : ℕ) (P : ℕ → Prop) [DecidablePred P] (i : ℕ) :
    ((List.range n).filter (fun j => decide (P j))).getLast? = some i ↔
      (i < n ∧ P i ∧ ∀ j, i < j → j < n → ¬ P j) := by
  have hp : ((List.range n).filter (fun j => decide (P j))).Pairwise (· < ·) :=
    List.Pairwise.sublist (List.filter_sublist _) (List.pairwise_lt_range n)
  constructor
  · intro h
    have hmem : i ∈ (List.range n).filter (fun j => decide (P j)) :=
      List.mem_of_mem_getLast? (by simp [h])
    rw [List.mem_filter, List.mem_range] at hmem
    obtain ⟨hlt, hPi⟩ := hmem
    refine ⟨hlt, of_decide_eq_true hPi, ?_⟩
    intro j hij hjn hPj
    have hjm : j ∈ (List.range n).filter (fun j => decide (P j)) := by
      rw [List.mem_filter, List.mem_range]
      exact ⟨hjn, decide_eq_true hPj⟩
    have := getLast?_le_of_pairwise_lt _ hp i h j hjm
    omega
  · rintro ⟨hlt, hPi, hmax⟩
    refine getLast?_eq_of_max _ hp i ?_ ?_
    · rw [List.mem_filter, List.mem_range]
      exact ⟨hlt, decide_eq_true hPi⟩
    · intro x hx
      rw [List.mem_filter, List.mem_range] at hx
      by_contra hxi
      exact hmax x (by omega) hx.1 (of_decide_eq_true hx.2)
lemma filter_range_eq_nil (n : ℕ) (P : ℕ → Prop) [DecidablePred P] :
    (List.range n).filter (fun j => decide (P j)) = [] ↔ ∀ j < n, ¬ P j := by
  rw [List.filter_eq_nil_iff]
  constructor
  · intro h j hj hPj
    exact absurd (decide_eq_true hPj) (h j (List.mem_range.mpr hj))
  · intro h j hj
    simp only [decide_eq_true_eq]
    exact h j (List.mem_range.mp hj)
lemma getD_take (l : List ℚ) (n j : ℕ) (h : j < n) :
    (l.take n).getD j 0 = l.getD j 0 := by
  simp [List.getD_eq_getElem?_getD, List.getElem?_take, h]
/-- C1: for every time axis, trace and fraction in (0,1), when the CFD
extractor succeeds it returns
`t = time[i] + (time[i+1]-time[i]) * (v_target - voltage[i]) / (voltage[i+1]-voltage[i])`,
where `v_target = fraction * v_peak`, `v_peak` is the global minimum of the
trace, and `i` is the last sample index strictly before the peak index whose
voltage is above `v_target`; if the denominator is exactly zero it returns
`time[i]` directly instead of dividing. -/
theorem dcfd_success_formula (time waveform : List ℚ) (fraction t : ℚ)
    (_hf0 : 0 < fraction) (_hf1 : fraction < 1)
    (h : get_dcfd_time time waveform fraction = some t) :
    ∃ i, (∀ v ∈ waveform, waveform.getD (argminIdx waveform) 0 ≤ v) ∧
      i < argminIdx waveform ∧
      fraction * waveform.getD (argminIdx waveform) 0 < waveform.getD i 0 ∧
      (∀ j, i < j → j < argminIdx waveform →
        waveform.getD j 0 ≤ fraction * waveform.getD (argminIdx waveform) 0) ∧
      ((waveform.getD (i + 1) 0 - waveform.getD i 0 = 0 ∧ t = time.getD i 0) ∨
       (waveform.getD (i + 1) 0 - waveform.getD i 0 ≠ 0 ∧
        t = time.getD i 0 + (time.getD (i + 1) 0 - time.getD i 0) *
          (fraction * waveform.getD (argminIdx waveform) 0 - waveform.getD i 0) /
          (waveform.getD (i + 1) 0 - waveform.getD i 0))) := by
  have hne : waveform ≠ [] := by
    intro hw
    rw [hw] at h
    simp [get_dcfd_time, argminIdx] at h
  have hplt : argminIdx waveform < waveform.length := argminIdx_lt_length waveform hne
  have hslen : (waveform.take (argminIdx waveform)).length = argminIdx waveform := by
    rw [List.length_take]; omega
  simp only [get_dcfd_time] at h
  split at h
  · exact absurd h (by simp)
  · split at h
    · exact absurd h (by simp)
    · split at h
      · exact absurd h (by simp)
      · rename_i hAem
        obtain ⟨i, hlast⟩ : ∃ i, ((List.range (waveform.take (argminIdx waveform)).length).filter
            (fun j => decide (fraction * waveform.getD (argminIdx waveform) 0 <
              (waveform.take (argminIdx waveform)).getD j 0))).getLast? = some i := by
          cases hgl : ((List.range (waveform.take (argminIdx waveform)).length).filter
              (fun j => decide (fraction * waveform.getD (argminIdx waveform) 0 <
                (waveform.take (argminIdx waveform)).getD j 0))).getLast? with
          | none =>
              rw [List.getLast?_eq_none_iff] at hgl
              rw [hgl] at hAem
              simp at hAem
          | some a => exact ⟨a, rfl⟩
        rw [hlast] at h
        simp only [Option.getD_some] at h
        have hchar := (getLast?_filter_range ((waveform.take (argminIdx waveform)).length)
          (fun j => fraction * waveform.getD (argminIdx waveform) 0 <
            (waveform.take (argminIdx waveform)).getD j 0) i).mp hlast
        rw [hslen] at hchar
        obtain ⟨hilt, hPi, hmax⟩ := hchar
        rw [getD_take _ _ _ hilt] at hPi
        refine ⟨i, argminIdx_le waveform hne, hilt, hPi, ?_, ?_⟩
        · intro j hij hjp
          have := hmax j hij hjp
          rw [getD_take _ _ _ hjp] at this
          exact le_of_not_lt this
        · split at h
          · exact absurd h (by simp)
          · split at h
            · rename_i hslope
              exact Or.inl ⟨hslope, (Option.some.injEq _ _).mp h.symm⟩
            · rename_i hslope
              exact Or.inr ⟨hslope, (Option.some.injEq _ _).mp h.symm⟩
/-- Witness for C1: a concrete clean pulse on which the extractor succeeds,
returning the interpolated crossing time 9/10. -/
theorem dcfd_success_formula_witness :
    (0:ℚ) < 3/10 ∧ (3:ℚ)/10 < 1 ∧
    get_dcfd_time [0, 1, 2, 3] [0, -1/10, -2/10, -3/10] (3/10) = some (9/10) ∧
    ∃ i, (∀ v ∈ ([0, -1/10, -2/10, -3/10] : List ℚ),
        ([0, -1/10, -2/10, -3/10] : List ℚ).getD
          (argminIdx [0, -1/10, -2/10, -3/10]) 0 ≤ v) ∧
      i < argminIdx [0, -1/10, -2/10, -3/10] ∧
      3/10 * ([0, -1/10, -2/10, -3/10] : List ℚ).getD
          (argminIdx [0, -1/10, -2/10, -3/10]) 0 <
        ([0, -1/10, -2/10, -3/10] : List ℚ).getD i 0 ∧
      (∀ j, i < j → j < argminIdx [0, -1/10, -2/10, -3/10] →
        ([0, -1/10, -2/10, -3/10] : List ℚ).getD j 0 ≤
          3/10 * ([0, -1/10, -2/10, -3/10] : List ℚ).getD
            (argminIdx [0, -1/10, -2/10, -3/10]) 0) ∧
      ((([0, -1/10, -2/10, -3/10] : List ℚ).getD (i + 1) 0 -
          ([0, -1/10, -2/10, -3/10] : List ℚ).getD i 0 = 0 ∧
        (9:ℚ)/10 = ([0, 1, 2, 3] : List ℚ).getD i 0) ∨
       (([0, -1/10, -2/10, -3/10] : List ℚ).getD (i + 1) 0 -
          ([0, -1/10, -2/10, -3/10] : List ℚ).getD i 0 ≠ 0 ∧
        (9:ℚ)/10 = ([0, 1, 2, 3] : List ℚ).getD i 0 +
          (([0, 1, 2, 3] : List ℚ).getD (i + 1) 0 -
            ([0, 1, 2, 3] : List ℚ).getD i 0) *
          (3/10 * ([0, -1/10, -2/10, -3/10] : List ℚ).getD
              (argminIdx [0, -1/10, -2/10, -3/10]) 0 -
            ([0, -1/10, -2/10, -3/10] : List ℚ).getD i 0) /
          (([0, -1/10, -2/10, -3/10] : List ℚ).getD (i + 1) 0 -
            ([0, -1/10, -2/10, -3/10] : List ℚ).getD i 0))) :=
  ⟨by norm_num, by norm_num, by
    norm_num [get_dcfd_time, argminIdx, argminAux, List.range_succ,
      List.filter_append, List.filter_cons, List.filter_nil],
    dcfd_success_formula [0, 1, 2, 3] [0, -1/10, -2/10, -3/10] (3/10) (9/10)
      (by norm_num) (by norm_num) (by
        norm_num [get_dcfd_time, argminIdx, argminAux, List.range_succ,
          List.filter_append, List.filter_cons, List.filter_nil])⟩
/-- C2 (amended): for a nonempty trace, `get_dcfd_time` returns Undefined
(`none`) if and only if one of the following holds: the global-minimum
voltage `v_peak` exceeds the noise floor `-1/2000` (i.e. is not more
negative than -0.5 mV); no sample strictly before the peak index is
strictly below `v_target = fraction * v_peak`; no sample strictly before
the peak index is strictly above `v_target`; or the last pre-peak sample
above `v_target` is the final index of the pre-peak region.  (The claim
as stated omits the second condition, which the code checks at
physics.py lines 41-45.) -/
theorem dcfd_none_iff (time waveform : List ℚ) (fraction : ℚ)
    (hne : waveform ≠ []) :
    get_dcfd_time time waveform fraction = none ↔
      (-1/2000 < waveform.getD (argminIdx waveform) 0 ∨
       (∀ j < argminIdx waveform,
         ¬ (waveform.getD j 0 <
            fraction * waveform.getD (argminIdx waveform) 0)) ∨
       (∀ j < argminIdx waveform,
         ¬ (fraction * waveform.getD (argminIdx waveform) 0 <
            waveform.getD j 0)) ∨
       (∃ i, i < argminIdx waveform ∧
         fraction * waveform.getD (argminIdx waveform) 0 < waveform.getD i 0 ∧
         (∀ j, i < j → j < argminIdx waveform →
           waveform.getD j 0 ≤
             fraction * waveform.getD (argminIdx waveform) 0) ∧
         argminIdx waveform ≤ i + 1)) := by
  have hplt : argminIdx waveform < waveform.length := argminIdx_lt_length waveform hne
  simp only [get_dcfd_time]
  set p := argminIdx waveform with hp
  set vt := fraction * waveform.getD p 0 with hvt
  have hslen : (waveform.take p).length = p := by
    rw [List.length_take]; omega
  by_cases h1 : -1/2000 < waveform.getD p 0
  · rw [if_pos h1]
    constructor
    · intro _
      exact Or.inl h1
    · intro _
      rfl
  · rw [if_neg h1]
    have hBiff : ((List.range (waveform.take p).length).filter
        (fun j => decide ((waveform.take p).getD j 0 < vt))) = [] ↔
        (∀ j < p, ¬ (waveform.getD j 0 < vt)) := by
      rw [filter_range_eq_nil]
      constructor
      · intro h j hj
        have := h j (by omega)
        rwa [getD_take _ _ _ hj] at this
      · intro h j hj
        rw [hslen] at hj
        rw [getD_take _ _ _ hj]
        exact h j hj
    by_cases h2 : ∀ j < p, ¬ (waveform.getD j 0 < vt)
    · have hBe : ((List.range (waveform.take p).length).filter
          (fun j => decide ((waveform.take p).getD j 0 < vt))).isEmpty = true := by
        rw [List.isEmpty_iff, hBiff]; exact h2
      rw [if_pos hBe]
      constructor
      · intro _
        exact Or.inr (Or.inl h2)
      · intro _
        rfl
    · have hBe : ¬ ((List.range (waveform.take p).length).filter
          (fun j => decide ((waveform.take p).getD j 0 < vt))).isEmpty = true := by
        rw [List.isEmpty_iff, hBiff]; exact h2
      rw [if_neg hBe]
      by_cases h3 : ∀ j < p, ¬ (vt < waveform.getD j 0)
      · have hAe : ((List.range (waveform.take p).length).filter
            (fun j => decide (vt < (waveform.take p).getD j 0))).isEmpty = true := by
          rw [List.isEmpty_iff, filter_range_eq_nil]
          intro j hj
          rw [hslen] at hj
          rw [getD_take _ _ _ hj]
          exact h3 j hj
        rw [if_pos hAe]
        constructor
        · intro _
          exact Or.inr (Or.inr (Or.inl h3))
        · intro _
          rfl
      · have hAne : ((List.range (waveform.take p).length).filter
            (fun j => decide (vt < (waveform.take p).getD j 0))) ≠ [] := by
          rw [Ne, filter_range_eq_nil]
          intro hcon
          apply h3
          intro j hj
          have := hcon j (by omega)
          rwa [getD_take _ _ _ hj] at this
        have hAem : ¬ ((List.range (waveform.take p).length).filter
            (fun j => decide (vt < (waveform.take p).getD j 0))).isEmpty = true := by
          rw [List.isEmpty_iff]
          exact hAne
        rw [if_neg hAem]
        obtain ⟨i, hlast⟩ : ∃ i, ((List.range (waveform.take p).length).filter
            (fun j => decide (vt < (waveform.take p).getD j 0))).getLast? = some i := by
          cases hgl : ((List.range (waveform.take p).length).filter
              (fun j => decide (vt < (waveform.take p).getD j 0))).getLast? with
          | none => exact absurd (List.getLast?_eq_none_iff.mp hgl) hAne
          | some a => exact ⟨a, rfl⟩
        have hchar := (getLast?_filter_range ((waveform.take p).length)
          (fun j => vt < (waveform.take p).getD j 0) i).mp hlast
        rw [hslen] at hchar
        obtain ⟨hilt, hPi, hmax⟩ := hchar
        rw [getD_take _ _ _ hilt] at hPi
        have hmax' : ∀ j, i < j → j < p → waveform.getD j 0 ≤ vt := by
          intro j hij hjp
          have := hmax j hij hjp
          rw [getD_take _ _ _ hjp] at this
          exact le_of_not_lt this
        rw [hlast]
        simp only [Option.getD_some]
        by_cases h4 : (waveform.take p).length ≤ i + 1
        · rw [if_pos h4]
          rw [hslen] at h4
          constructor
          · intro _
            exact Or.inr (Or.inr (Or.inr ⟨i, hilt, hPi, hmax', h4⟩))
          · intro _
            rfl
        · rw [if_neg h4]
          rw [hslen] at h4
          have hsome : ∀ (q : ℚ), ¬ (some q = (none : Option ℚ)) := by
            intro q hq; exact Option.noConfusion hq
          constructor
          · intro hcon
            exfalso
            by_cases hsl : waveform.getD (i + 1) 0 - waveform.getD i 0 = 0
            · rw [if_pos hsl] at hcon; exact hsome _ hcon
            · rw [if_neg hsl] at hcon; exact hsome _ hcon
          · rintro (hA | hB | hC | ⟨i2, hi2lt, hi2P, hi2max, hi2fin⟩)
            · exact absurd hA h1
            · exact absurd hB h2
            · exact absurd hC h3
            · exfalso
              have heq : i2 = i := by
                rcases lt_trichotomy i2 i with hlt | heq | hgt
                · exact absurd hPi (not_lt.mpr (hi2max i hlt hilt))
                · exact heq
                · exact absurd hi2P (not_lt.mpr (hmax' i2 hgt hi2lt))
              rw [heq] at hi2fin
              omega
/-- Counterexample for C2 as stated: on the trace `[0, -9/100, -9/100, -3/10]`
with fraction 3/10 the extractor returns Undefined, yet none of the three
conditions listed by the claim holds (the peak is well below the noise floor,
sample 0 is above `v_target`, and the last above-target sample, index 0, is
not the final pre-peak index).  The code's additional check — that some
pre-peak sample lies strictly below `v_target` — fires instead. -/
theorem dcfd_none_missing_condition_cex :
    get_dcfd_time [0, 1, 2, 3] [0, -9/100, -9/100, -3/10] (3/10) = none ∧
    ¬ (-1/2000 < ([0, -9/100, -9/100, -3/10] : List ℚ).getD
          (argminIdx [0, -9/100, -9/100, -3/10]) 0 ∨
       (∀ j < argminIdx [0, -9/100, -9/100, -3/10],
         ¬ (3/10 * ([0, -9/100, -9/100, -3/10] : List ℚ).getD
              (argminIdx [0, -9/100, -9/100, -3/10]) 0 <
            ([0, -9/100, -9/100, -3/10] : List ℚ).getD j 0)) ∨
       (∃ i, i < argminIdx [0, -9/100, -9/100, -3/10] ∧
         3/10 * ([0, -9/100, -9/100, -3/10] : List ℚ).getD
             (argminIdx [0, -9/100, -9/100, -3/10]) 0 <
           ([0, -9/100, -9/100, -3/10] : List ℚ).getD i 0 ∧
         (∀ j, i < j → j < argminIdx [0, -9/100, -9/100, -3/10] →
           ([0, -9/100, -9/100, -3/10] : List ℚ).getD j 0 ≤
             3/10 * ([0, -9/100, -9/100, -3/10] : List ℚ).getD
               (argminIdx [0, -9/100, -9/100, -3/10]) 0) ∧
         argminIdx [0, -9/100, -9/100, -3/10] ≤ i + 1)) := by
  have hp : argminIdx [0, -9/100, -9/100, -3/10] = 3 := by
    norm_num [argminIdx, argminAux]
  constructor
  · norm_num [get_dcfd_time, argminIdx, argminAux, List.range_succ,
      List.filter_append, List.filter_cons, List.filter_nil]
  · rw [hp]
    rintro (hA | hB | ⟨i, hi3, hPi, hmax, hfin⟩)
    · norm_num [List.getD_cons_succ, List.getD_cons_zero] at hA
    · have := hB 0 (by norm_num)
      apply this
      norm_num [List.getD_cons_succ, List.getD_cons_zero]
    · have hi2 : i = 2 := by omega
      rw [hi2] at hPi
      norm_num [List.getD_cons_succ, List.getD_cons_zero] at hPi
/-- Witness for C2 (amended): the characterisation instantiated on the
single-sample trace `[-1]`, whose nonemptiness hypothesis is discharged
concretely. -/
theorem dcfd_none_iff_witness :
    (([-1] : List ℚ) ≠ []) ∧
    (get_dcfd_time [] [-1] (1/2) = none ↔
      (-1/2000 < ([-1] : List ℚ).getD (argminIdx [-1]) 0 ∨
       (∀ j < argminIdx [-1],
         ¬ (([-1] : List ℚ).getD j 0 <
            1/2 * ([-1] : List ℚ).getD (argminIdx [-1]) 0)) ∨
       (∀ j < argminIdx [-1],
         ¬ (1/2 * ([-1] : List ℚ).getD (argminIdx [-1]) 0 <
            ([-1] : List ℚ).getD j 0)) ∨
       (∃ i, i < argminIdx [-1] ∧
         1/2 * ([-1] : List ℚ).getD (argminIdx [-1]) 0 <
           ([-1] : List ℚ).getD i 0 ∧
         (∀ j, i < j → j < argminIdx [-1] →
           ([-1] : List ℚ).getD j 0 ≤
             1/2 * ([-1] : List ℚ).getD (argminIdx [-1]) 0) ∧
         argminIdx [-1] ≤ i + 1))) :=
  ⟨by simp, dcfd_none_iff [] [-1] (1/2) (by simp)⟩
/-- C7: `categorize_events` assigns each event index to exactly one list,
checking the positive-noise condition first (it pre-empts the amplitude
check), then the amplitude-below-cut condition; the three lists are
pairwise disjoint, each is strictly increasing, and their union is exactly
`range num_events`. -/
theorem categorize_events_partition (chans : List ChannelData) (thr : ℚ)
    (num_events : ℕ) :
    (∀ i, i ∈ (categorize_events chans thr num_events).2.2 ↔
      (i < num_events ∧ ∃ c ∈ chans, ∃ v ∈ c.traces.getD i [], thr < v)) ∧
    (∀ i, i ∈ (categorize_events chans thr num_events).2.1 ↔
      (i < num_events ∧ ¬ (∃ c ∈ chans, ∃ v ∈ c.traces.getD i [], thr < v) ∧
        ∃ c ∈ chans, c.amps.getD i 0 < c.cut)) ∧
    (∀ i, i ∈ (categorize_events chans thr num_events).1 ↔
      (i < num_events ∧ ¬ (∃ c ∈ chans, ∃ v ∈ c.traces.getD i [], thr < v) ∧
        ¬ (∃ c ∈ chans, c.amps.getD i 0 < c.cut))) ∧
    (∀ i, ¬ (i ∈ (categorize_events chans thr num_events).1 ∧
             i ∈ (categorize_events chans thr num_events).2.1)) ∧
    (∀ i, ¬ (i ∈ (categorize_events chans thr num_events).1 ∧
             i ∈ (categorize_events chans thr num_events).2.2)) ∧
    (∀ i, ¬ (i ∈ (categorize_events chans thr num_events).2.1 ∧
             i ∈ (categorize_events chans thr num_events).2.2)) ∧
    (categorize_events chans thr num_events).1.Pairwise (· < ·) ∧
    (categorize_events chans thr num_events).2.1.Pairwise (· < ·) ∧
    (categorize_events chans thr num_events).2.2.Pairwise (· < ·) ∧
    (∀ i, i < num_events ↔
      (i ∈ (categorize_events chans thr num_events).1 ∨
       i ∈ (categorize_events chans thr num_events).2.1 ∨
       i ∈ (categorize_events chans thr num_events).2.2)) := by
  have hnoise : ∀ i, eventIsNoise chans thr i = true ↔
      ∃ c ∈ chans, ∃ v ∈ c.traces.getD i [], thr < v := by
    intro i
    simp [eventIsNoise, List.any_eq_true]
  have hclip : ∀ i, eventIsClipped chans i = true ↔
      ∃ c ∈ chans, c.amps.getD i 0 < c.cut := by
    intro i
    simp [eventIsClipped, List.any_eq_true]
  have hmemc : ∀ i, i ∈ (categorize_events chans thr num_events).1 ↔
      (i < num_events ∧ eventIsNoise chans thr i = false ∧
        eventIsClipped chans i = false) := by
    intro i
    simp [categorize_events, List.mem_filter]
  have hmemp : ∀ i, i ∈ (categorize_events chans thr num_events).2.1 ↔
      (i < num_events ∧ eventIsNoise chans thr i = false ∧
        eventIsClipped chans i = true) := by
    intro i
    simp [categorize_events, List.mem_filter]
  have hmemn : ∀ i, i ∈ (categorize_events chans thr num_events).2.2 ↔
      (i < num_events ∧ eventIsNoise chans thr i = true) := by
    intro i
    simp [categorize_events, List.mem_filter]
  refine ⟨?_, ?_, ?_, ?_, ?_, ?_, ?_, ?_, ?_, ?_⟩
  · intro i
    rw [hmemn, hnoise]
  · intro i
    rw [hmemp, ← hnoise, ← hclip]
    simp
  · intro i
    rw [hmemc, ← hnoise, ← hclip]
    simp
  · intro i
    rw [hmemc, hmemp]
    rintro ⟨⟨_, _, hc1⟩, ⟨_, _, hc2⟩⟩
    rw [hc1] at hc2
    exact Bool.false_ne_true hc2
  · intro i
    rw [hmemc, hmemn]
    rintro ⟨⟨_, hn1, _⟩, ⟨_, hn2⟩⟩
    rw [hn1] at hn2
    exact Bool.false_ne_true hn2
  · intro i
    rw [hmemp, hmemn]
    rintro ⟨⟨_, hn1, _⟩, ⟨_, hn2⟩⟩
    rw [hn1] at hn2
    exact Bool.false_ne_true hn2
  · exact List.Pairwise.sublist (List.filter_sublist _) (List.pairwise_lt_range _)
  · exact List.Pairwise.sublist (List.filter_sublist _) (List.pairwise_lt_range _)
  · exact List.Pairwise.sublist (List.filter_sublist _) (List.pairwise_lt_range _)
  · intro i
    rw [hmemc, hmemp, hmemn]
    constructor
    · intro hi
      cases hn : eventIsNoise chans thr i with
      | true => exact Or.inr (Or.inr ⟨hi, rfl⟩)
      | false =>
          cases hc : eventIsClipped chans i with
          | true => exact Or.inr (Or.inl ⟨hi, rfl, rfl⟩)
          | false => exact Or.inl ⟨hi, rfl, rfl⟩
    · rintro (⟨hi, _⟩ | ⟨hi, _⟩ | ⟨hi, _⟩) <;> exact hi
lemma argmaxAux_snd_ge (l : List ℕ) :
    ∀ (i b : ℕ) (bv : ℕ), bv ≤ (argmaxAux l i b bv).2 ∧
      ∀ v ∈ l, v ≤ (argmaxAux l i b bv).2 := by
  induction l with
  | nil => intro i b bv; exact ⟨le_refl _, by simp⟩
  | cons v t ih =>
      intro i b bv
      simp only [argmaxAux]
      by_cases h : bv < v
      · simp only [h, if_true]
        obtain ⟨h1, h2⟩ := ih (i + 1) i v
        exact ⟨le_trans (le_of_lt h) h1, by
          intro w hw
          rcases List.mem_cons.mp hw with hw | hw
          · exact hw ▸ h1
          · exact h2 w hw⟩
      · simp only [h, if_false]
        obtain ⟨h1, h2⟩ := ih (i + 1) b bv
        refine ⟨h1, ?_⟩
        intro w hw
        rcases List.mem_cons.mp hw with hw | hw
        · exact hw ▸ le_trans (not_lt.mp h) h1
        · exact h2 w hw
lemma argmaxAux_fst_spec (l : List ℕ) :
    ∀ (i b : ℕ) (bv : ℕ),
      ((argmaxAux l i b bv).1 = b ∧ (argmaxAux l i b bv).2 = bv) ∨
      (∃ j, j < l.length ∧ (argmaxAux l i b bv).1 = i + j ∧
        l.getD j 0 = (argmaxAux l i b bv).2) := by
  induction l with
  | nil => intro i b bv; exact Or.inl ⟨rfl, rfl⟩
  | cons v t ih =>
      intro i b bv
      simp only [argmaxAux]
      by_cases h : bv < v
      · simp only [h, if_true]
        rcases ih (i + 1) i v with ⟨h1, h2⟩ | ⟨j, hj, h1, h2⟩
        · exact Or.inr ⟨0, by simp, by simpa using h1, by simpa using h2.symm⟩
        · exact Or.inr ⟨j + 1, by simpa using hj, by omega, by simpa using h2⟩
      · simp only [h, if_false]
        rcases ih (i + 1) b bv with ⟨h1, h2⟩ | ⟨j, hj, h1, h2⟩
        · exact Or.inl ⟨h1, h2⟩
        · exact Or.inr ⟨j + 1, by simpa using hj, by omega, by simpa using h2⟩
lemma argmaxIdx_lt_length (l : List ℕ) (h : l ≠ []) : argmaxIdx l < l.length := by
  match l with
  | [] => exact absurd rfl h
  | v :: t =>
      simp only [argmaxIdx]
      rcases argmaxAux_fst_spec t 1 0 v with ⟨h1, _⟩ | ⟨j, hj, h1, _⟩
      · simp [h1]
      · simp only [h1, List.length_cons]
        omega
lemma argmaxIdx_getD (l : List ℕ) (h : l ≠ []) :
    l.getD (argmaxIdx l) 0 = (match l with
      | [] => 0
      | v :: t => (argmaxAux t 1 0 v).2) := by
  match l with
  | [] => exact absurd rfl h
  | v :: t =>
      simp only [argmaxIdx]
      rcases argmaxAux_fst_spec t 1 0 v with ⟨h1, h2⟩ | ⟨j, hj, h1, h2⟩
      · simp [h1, h2]
      · rw [h1]
        show (v :: t).getD (1 + j) 0 = _
        rw [Nat.add_comm 1 j]
        simpa using h2
lemma argmaxIdx_ge (l : List ℕ) (h : l ≠ []) :
    ∀ v ∈ l, v ≤ l.getD (argmaxIdx l) 0 := by
  match l with
  | [] => exact absurd rfl h
  | v :: t =>
      intro w hw
      rw [argmaxIdx_getD _ h]
      obtain ⟨h1, h2⟩ := argmaxAux_snd_ge t 1 0 v
      rcases List.mem_cons.mp hw with hw | hw
      · exact hw ▸ h1
      · exact h2 w hw
lemma getD_map_range (f : ℕ → ℕ) (n j : ℕ) (h : j < n) :
    ((List.range n).map f).getD j 0 = f j := by
  rw [List.getD_eq_getElem?_getD, List.getElem?_map]
  simp [List.getElem?_range h]
/-- C8: the per-run cut of a channel is computed from its amplitude
histogram (100 bins over `[0, 1/2]` V): the peak position is the centre of
the first bin of maximal count; a channel at stack position 0 (top) or 3
(bottom) gets the cut `max (1/20) (9/10 * peak)`, a channel at any other
position gets exactly the floor `1/20` V. -/
theorem calculate_cuts_spec (amplitudes : List (ℕ × List ℚ)) (cfg : List ℕ)
    (ch : ℕ) (amps : List ℚ) (hmem : (ch, amps) ∈ amplitudes) :
    (ch, cut_for amps (positionOf ch cfg)) ∈ calculate_cuts amplitudes cfg ∧
    argmaxIdx (histCounts amps) < 100 ∧
    (∀ j < 100, binCount amps j ≤ binCount amps (argmaxIdx (histCounts amps))) ∧
    ((positionOf ch cfg = 0 ∨ positionOf ch cfg = 3) →
      cut_for amps (positionOf ch cfg) =
        max (1/20) (9/10 * binCenter (argmaxIdx (histCounts amps)))) ∧
    (¬ (positionOf ch cfg = 0 ∨ positionOf ch cfg = 3) →
      cut_for amps (positionOf ch cfg) = 1/20) := by
  have hne : histCounts amps ≠ [] := by
    simp [histCounts, List.range_succ]
  have hlen : (histCounts amps).length = 100 := by
    simp [histCounts]
  have hlt : argmaxIdx (histCounts amps) < 100 := by
    have := argmaxIdx_lt_length _ hne
    omega
  refine ⟨?_, hlt, ?_, ?_, ?_⟩
  · rw [calculate_cuts]
    exact List.mem_map.mpr ⟨(ch, amps), hmem, rfl⟩
  · intro j hj
    have hj2 := argmaxIdx_ge _ hne (binCount amps j) (by
      rw [histCounts]
      exact List.mem_map.mpr ⟨j, List.mem_range.mpr hj, rfl⟩)
    rwa [show (histCounts amps).getD (argmaxIdx (histCounts amps)) 0 =
        binCount amps (argmaxIdx (histCounts amps)) from
      getD_map_range (binCount amps) 100 _ hlt] at hj2
  · intro hpos
    rw [cut_for, if_pos hpos]
  · intro hpos
    rw [cut_for, if_neg hpos]
/-- Witness for C8: a concrete single-channel run, channel 1 at stack
position 0 of configuration `[1,2,3,4]`. -/
theorem calculate_cuts_spec_witness :
    ((1 : ℕ), cut_for [1/10, 1/10, 3/10] (positionOf 1 [1, 2, 3, 4])) ∈
      calculate_cuts [(1, [1/10, 1/10, 3/10])] [1, 2, 3, 4] ∧
    argmaxIdx (histCounts [1/10, 1/10, 3/10]) < 100 ∧
    (∀ j < 100, binCount [1/10, 1/10, 3/10] j ≤
      binCount [1/10, 1/10, 3/10] (argmaxIdx (histCounts [1/10, 1/10, 3/10]))) ∧
    ((positionOf 1 [1, 2, 3, 4] = 0 ∨ positionOf 1 [1, 2, 3, 4] = 3) →
      cut_for [1/10, 1/10, 3/10] (positionOf 1 [1, 2, 3, 4]) =
        max (1/20) (9/10 * binCenter (argmaxIdx (histCounts [1/10, 1/10, 3/10])))) ∧
    (¬ (positionOf 1 [1, 2, 3, 4] = 0 ∨ positionOf 1 [1, 2, 3, 4] = 3) →
      cut_for [1/10, 1/10, 3/10] (positionOf 1 [1, 2, 3, 4]) = 1/20) :=
  calculate_cuts_spec [(1, [1/10, 1/10, 3/10])] [1, 2, 3, 4] 1 [1/10, 1/10, 3/10]
    (List.mem_singleton.mpr rfl)
/-- C5: when the payload holds fewer than `frame_count * sample_count` raw
samples, the decoder fails with a ShortFileError exactly when not even one
full frame is available; otherwise it keeps `floor(available / sample_count)`
complete frames, each of the declared sample count, built only from the
prefix of the available samples (never reading past end-of-file). -/
theorem read_data_truncation (h : WfmHeader) (raw : List ℤ)
    (hshort : raw.length < h.numFrames * h.timeSize) :
    (read_data h raw = Except.error DecodeErr.shortFile ↔
      raw.length < h.timeSize) ∧
    (∀ t frames, read_data h raw = Except.ok (t, frames) →
      frames.length = raw.length / h.timeSize ∧
      (∀ fr ∈ frames, fr.length = h.timeSize) ∧
      frames = (reshape (raw.length / h.timeSize) h.timeSize
          (raw.take ((raw.length / h.timeSize) * h.timeSize))).map
        (List.map (convVolt h))) := by
  have htpos : 0 < h.timeSize := by
    rcases Nat.eq_zero_or_pos h.timeSize with h0 | h0
    · rw [h0, Nat.mul_zero] at hshort
      omega
    · exact h0
  have htake : raw.take (h.numFrames * h.timeSize) = raw :=
    List.take_of_length_le (le_of_lt hshort)
  have hlen : (raw.take (h.numFrames * h.timeSize)).length = raw.length := by
    rw [htake]
  have hne : (raw.take (h.numFrames * h.timeSize)).length ≠
      h.numFrames * h.timeSize := by
    rw [hlen]
    omega
  have hdivle : (raw.length / h.timeSize) * h.timeSize ≤ raw.length :=
    Nat.div_mul_le_self _ _
  constructor
  · rw [read_data]
    rw [if_pos hne]
    constructor
    · intro heq
      by_cases hz : (raw.take (h.numFrames * h.timeSize)).length / h.timeSize = 0
      · rw [hlen] at hz
        exact (Nat.div_eq_zero_iff htpos).mp hz
      · rw [if_neg hz] at heq
        exact absurd heq (by simp)
    · intro hlt
      have hz : (raw.take (h.numFrames * h.timeSize)).length / h.timeSize = 0 := by
        rw [hlen]
        exact Nat.div_eq_of_lt hlt
      rw [if_pos hz]
  · intro t frames hok
    rw [read_data, if_pos hne] at hok
    by_cases hz : (raw.take (h.numFrames * h.timeSize)).length / h.timeSize = 0
    · rw [if_pos hz] at hok
      exact absurd hok (by simp)
    · rw [if_neg hz] at hok
      simp only [Except.ok.injEq, Prod.mk.injEq] at hok
      obtain ⟨_, hframes⟩ := hok
      rw [hlen] at hframes
      rw [htake] at hframes
      refine ⟨?_, ?_, hframes.symm⟩
      · rw [← hframes]
        simp [reshape]
      · intro fr hfr
        rw [← hframes] at hfr
        simp only [reshape, List.mem_map] at hfr
        obtain ⟨chunk, ⟨i, hi, hchunk⟩, hfr⟩ := hfr
        rw [List.mem_range] at hi
        have hchlen : chunk.length = h.timeSize := by
          rw [← hchunk]
          rw [List.length_take, List.length_drop, List.length_take]
          have h1 : (raw.length / h.timeSize) * h.timeSize ≤ raw.length := hdivle
          have h2 : i + 1 ≤ raw.length / h.timeSize := hi
          have h3 : (i + 1) * h.timeSize ≤ (raw.length / h.timeSize) * h.timeSize :=
            Nat.mul_le_mul_right _ h2
          rw [Nat.add_mul, Nat.one_mul] at h3
          omega
        rw [← hfr, List.length_map, hchlen]
/-- Witness for C5: a payload of 5 samples against a declared 3 frames of 2
samples decodes to exactly 2 complete frames. -/
theorem read_data_truncation_witness :
    ((5 : ℕ) < 3 * 2) ∧
    (read_data ⟨3, 2, 1, 0, 1, 0⟩ [1, 2, 3, 4, 5] =
        Except.error DecodeErr.shortFile ↔ 5 < 2) ∧
    (∀ t frames, read_data ⟨3, 2, 1, 0, 1, 0⟩ [1, 2, 3, 4, 5] =
        Except.ok (t, frames) →
      frames.length = 5 / 2 ∧
      (∀ fr ∈ frames, fr.length = 2) ∧
      frames = (reshape (5 / 2) 2
          (([1, 2, 3, 4, 5] : List ℤ).take ((5 / 2) * 2))).map
        (List.map (convVolt ⟨3, 2, 1, 0, 1, 0⟩))) := by
  refine ⟨by norm_num, ?_⟩
  have := read_data_truncation ⟨3, 2, 1, 0, 1, 0⟩ [1, 2, 3, 4, 5] (by norm_num)
  simpa using this
/-- Counterexample for C6 as stated: a capture with the recognized
little-endian marker bytes `0x0f 0x0f` but the unrecognized sample-format
code 99 decodes successfully — no FormatError is raised; the code silently
falls back to int16 (`dtype_map.get(self.data_format, np.int16)`). -/
theorem decode_format_code_cex :
    ¬ ((99 : ℤ) = 7 ∨ (99 : ℤ) = 0 ∨ (99 : ℤ) = 1 ∨ (99 : ℤ) = 4) ∧
    decodeCapture 15 15 99 ⟨1, 2, 1, 0, 1, 0⟩ [5, 7] =
      Except.ok (Endian.little, NpDtype.int16, [0, 1], [[5, 7]]) := by
  constructor
  · norm_num
  · norm_num [decodeCapture, checkByteOrder, npDtypeOf, read_data, reshape,
      timeAxis, convVolt, List.range_succ]
/-- C6 (amended): decoding fails with a FormatError exactly when the
two-byte byte-order marker matches neither recognized sentinel
(`0x0f 0x0f` or `0xf0 0xf0`); an unrecognized sample-format code never
raises a FormatError — it is silently decoded as int16. -/
theorem decode_format_error_iff (b0 b1 : ℕ) (fmt : ℤ) (h : WfmHeader)
    (raw : List ℤ) :
    decodeCapture b0 b1 fmt h raw = Except.error DecodeErr.formatError ↔
      ¬ ((b0 = 15 ∧ b1 = 15) ∨ (b0 = 240 ∧ b1 = 240)) := by
  have hrd : read_data h raw ≠ Except.error DecodeErr.formatError := by
    rw [read_data]
    by_cases h1 : (raw.take (h.numFrames * h.timeSize)).length ≠
        h.numFrames * h.timeSize
    · rw [if_pos h1]
      by_cases h2 : (raw.take (h.numFrames * h.timeSize)).length / h.timeSize = 0
      · rw [if_pos h2]
        simp
      · rw [if_neg h2]
        simp
    · rw [if_neg h1]
      simp
  constructor
  · intro heq
    intro hcon
    rw [decodeCapture] at heq
    rcases hcon with ⟨hb0, hb1⟩ | ⟨hb0, hb1⟩
    · rw [checkByteOrder, if_pos ⟨hb0, hb1⟩] at heq
      cases hread : read_data h raw with
      | error e =>
          rw [hread] at heq
          simp only [Except.error.injEq] at heq
          rw [heq] at hread
          exact hrd hread
      | ok val =>
          rw [hread] at heq
          exact absurd heq (by simp)
    · rw [checkByteOrder] at heq
      by_cases hlit : b0 = 15 ∧ b1 = 15
      · rw [if_pos hlit] at heq
        cases hread : read_data h raw with
        | error e =>
            rw [hread] at heq
            simp only [Except.error.injEq] at heq
            rw [heq] at hread
            exact hrd hread
        | ok val =>
            rw [hread] at heq
            exact absurd heq (by simp)
      · rw [if_neg hlit, if_pos ⟨hb0, hb1⟩] at heq
        cases hread : read_data h raw with
        | error e =>
            rw [hread] at heq
            simp only [Except.error.injEq] at heq
            rw [heq] at hread
            exact hrd hread
        | ok val =>
            rw [hread] at heq
            exact absurd heq (by simp)
  · intro hcon
    rw [decodeCapture, checkByteOrder]
    rw [if_neg (fun hl => hcon (Or.inl hl)), if_neg (fun hb => hcon (Or.inr hb))]
/-- Witness for C6 (amended): an unrecognized marker pair yields a
FormatError for a concrete header and payload. -/
theorem decode_format_error_iff_witness :
    decodeCapture 1 2 0 ⟨1, 2, 1, 0, 1, 0⟩ [] =
      Except.error DecodeErr.formatError :=
  (decode_format_error_iff 1 2 0 ⟨1, 2, 1, 0, 1, 0⟩ []).mpr (by norm_num)
/-- C4: with fewer than 4 valid pair variances of the 6, `solve_jitter`
returns the explicit all-NaN length-4 result without attempting a solve
(it never consults the solver oracle); being a total function, it cannot
abort the processing of other runs. -/
theorem solve_jitter_underdetermined
    (lsq : Finset (Fin 6) → (Fin 6 → ℚ) → (Fin 4 → ℚ))
    (pv : Fin 6 → Option ℚ) (h : (validIdx pv).card < 4) :
    solve_jitter lsq pv = fun _ => none := by
  rw [solve_jitter, if_pos h]
/-- Witness for C4: three valid pair variances yield the all-NaN result. -/
theorem solve_jitter_underdetermined_witness :
    (validIdx ![some 1, some 1, some 1, none, none, none]).card < 4 ∧
    solve_jitter (fun _ _ _ => 0) ![some 1, some 1, some 1, none, none, none] =
      fun _ => none :=
  ⟨by decide, solve_jitter_underdetermined _ _ (by decide)⟩
/-- C10: with at least 4 but fewer than 6 valid pair variances,
`solve_jitter` does not report failure: assuming the oracle solves the
reduced nonnegative least-squares system restricted to the valid rows, the
result is a full length-4 array of sigmas, the square roots of the solved
per-channel variances. -/
theorem solve_jitter_reduced
    (lsq : Finset (Fin 6) → (Fin 6 → ℚ) → (Fin 4 → ℚ))
    (pv : Fin 6 → Option ℚ)
    (h4 : 4 ≤ (validIdx pv).card) (h6 : (validIdx pv).card < 6)
    (hmin : IsNNLSSol (validIdx pv) (yOf pv) (lsq (validIdx pv) (yOf pv))) :
    ∃ x, IsNNLSSol (validIdx pv) (yOf pv) x ∧
      ∀ j, solve_jitter lsq pv j = some (Real.sqrt ((x j : ℚ) : ℝ)) := by
  refine ⟨lsq (validIdx pv) (yOf pv), hmin, fun j => ?_⟩
  rw [solve_jitter, if_neg (by omega)]
/-- Witness for C10: five valid pair variances, all equal to 2, are solved
by unit variances for all four channels. -/
theorem solve_jitter_reduced_witness :
    4 ≤ (validIdx ![some 2, some 2, some 2, some 2, some 2, none]).card ∧
    (validIdx ![some 2, some 2, some 2, some 2, some 2, none]).card < 6 ∧
    ∃ x, IsNNLSSol (validIdx ![some 2, some 2, some 2, some 2, some 2, none])
        (yOf ![some 2, some 2, some 2, some 2, some 2, none]) x ∧
      ∀ j, solve_jitter (fun _ _ _ => 1)
          ![some 2, some 2, some 2, some 2, some 2, none] j =
        some (Real.sqrt ((x j : ℚ) : ℝ)) := by
  have hzero : costQ (validIdx ![some 2, some 2, some 2, some 2, some 2, none])
      (yOf ![some 2, some 2, some 2, some 2, some 2, none]) (fun _ => 1) = 0 := by
    have hV : validIdx ![some 2, some 2, some 2, some 2, some 2, none] =
        ({0, 1, 2, 3, 4} : Finset (Fin 6)) := by decide
    rw [costQ, hV]
    rw [show ({0, 1, 2, 3, 4} : Finset (Fin 6)) =
      insert 0 (insert 1 (insert 2 (insert 3 {4}))) from rfl]
    rw [Finset.sum_insert (by decide), Finset.sum_insert (by decide),
      Finset.sum_insert (by decide), Finset.sum_insert (by decide),
      Finset.sum_singleton]
    norm_num [pairsA, yOf, Fin.sum_univ_four]
  have hmin : IsNNLSSol (validIdx ![some 2, some 2, some 2, some 2, some 2, none])
      (yOf ![some 2, some 2, some 2, some 2, some 2, none]) (fun _ => 1) := by
    constructor
    · intro j
      norm_num
    · intro z _
      rw [hzero]
      apply Finset.sum_nonneg
      intro i _
      positivity
  exact ⟨by decide, by decide,
    solve_jitter_reduced (fun _ _ _ => 1) ![some 2, some 2, some 2, some 2, some 2, none]
      (by decide) (by decide) hmin⟩
lemma pairsA_row0 : pairsA 0 = ![1, 1, 0, 0] := rfl
lemma pairsA_row1 : pairsA 1 = ![1, 0, 1, 0] := rfl
lemma pairsA_row2 : pairsA 2 = ![1, 0, 0, 1] := rfl
lemma pairsA_row3 : pairsA 3 = ![0, 1, 1, 0] := rfl
lemma pairsA_row4 : pairsA 4 = ![0, 1, 0, 1] := rfl
lemma pairsA_row5 : pairsA 5 = ![0, 0, 1, 1] := rfl
lemma cost_univ_expand (y : Fin 6 → ℚ) (x : Fin 4 → ℚ) :
    costQ Finset.univ y x =
      (x 0 + x 1 - y 0)^2 + (x 0 + x 2 - y 1)^2 + (x 0 + x 3 - y 2)^2 +
      (x 1 + x 2 - y 3)^2 + (x 1 + x 3 - y 4)^2 + (x 2 + x 3 - y 5)^2 := by
  rw [costQ, Fin.sum_univ_six]
  simp [pairsA_row0, pairsA_row1, pairsA_row2, pairsA_row3, pairsA_row4,
    pairsA_row5, Fin.sum_univ_four]
lemma cost_V4_expand (y : Fin 6 → ℚ) (x : Fin 4 → ℚ) :
    costQ {0, 1, 2, 3} y x =
      (x 0 + x 1 - y 0)^2 + (x 0 + x 2 - y 1)^2 +
      (x 0 + x 3 - y 2)^2 + (x 1 + x 2 - y 3)^2 := by
  rw [costQ]
  rw [show ({0, 1, 2, 3} : Finset (Fin 6)) =
    insert 0 (insert 1 (insert 2 {3})) from rfl]
  rw [Finset.sum_insert (by decide), Finset.sum_insert (by decide),
    Finset.sum_insert (by decide), Finset.sum_singleton]
  simp [pairsA_row0, pairsA_row1, pairsA_row2, pairsA_row3, Fin.sum_univ_four]
  ring
lemma quad3_zero_of_min (C g : ℚ) (F : ℚ → ℚ)
    (hexp : ∀ s, F s = C + g * s + 3 * s^2)
    (hmin : ∀ s, C ≤ F s) : g = 0 := by
  have h := hmin (-(g/6))
  rw [hexp] at h
  have h2 : g^2 ≤ 0 := by nlinarith
  have h3 : g^2 = 0 := le_antisymm h2 (sq_nonneg g)
  exact sq_eq_zero_iff.mp h3
lemma quad3_nonneg_of_min (C g : ℚ) (F : ℚ → ℚ)
    (hexp : ∀ s, F s = C + g * s + 3 * s^2)
    (hmin : ∀ s, 0 ≤ s → C ≤ F s) : 0 ≤ g := by
  by_contra hg
  push_neg at hg
  have h := hmin (-(g/6)) (by linarith)
  rw [hexp] at h
  nlinarith [mul_pos_of_neg_of_neg hg hg]
lemma quad3_zero_of_min_cap (C g cap : ℚ) (F : ℚ → ℚ) (hcap : 0 < cap)
    (hexp : ∀ s, F s = C + g * s + 3 * s^2)
    (hminup : ∀ s, 0 ≤ s → C ≤ F s)
    (hmindown : ∀ s, -cap ≤ s → s ≤ 0 → C ≤ F s) : g = 0 := by
  have hg0 : 0 ≤ g := quad3_nonneg_of_min C g F hexp hminup
  by_contra hgne
  have hg : 0 < g := lt_of_le_of_ne hg0 (Ne.symm hgne)
  have hmpos : 0 < min cap (g/6) := lt_min hcap (by positivity)
  have hmle : min cap (g/6) ≤ g/6 := min_le_right _ _
  have h := hmindown (-(min cap (g/6)))
    (by linarith [min_le_left cap (g/6)]) (by linarith)
  rw [hexp] at h
  nlinarith [mul_pos hg hmpos,
    mul_le_mul_of_nonneg_left hmle (by linarith : (0:ℚ) ≤ 3 * min cap (g/6))]
/-- Counterexample for C3 as stated: with the four valid pairs
1-2, 1-3, 1-4, 2-3 and measured variances (20, 12, 18, -8), the (unique)
unconstrained least-squares solution is `(20, 0, -8, -2)` — channel 4 is
negative — yet the nonnegative least-squares solution is `(16, 0, 0, 2)`,
whose channel-4 variance is 2, not 0.  The exact-zero clamping claimed for
every input with at least 4 valid pairs fails on reduced systems. -/
theorem solve_jitter_clamp_cex :
    4 ≤ (validIdx ![some 20, some 12, some 18, some (-8), none, none]).card ∧
    IsLSSol (validIdx ![some 20, some 12, some 18, some (-8), none, none])
      (yOf ![some 20, some 12, some 18, some (-8), none, none])
      ![20, 0, -8, -2] ∧
    IsNNLSSol (validIdx ![some 20, some 12, some 18, some (-8), none, none])
      (yOf ![some 20, some 12, some 18, some (-8), none, none])
      ![16, 0, 0, 2] ∧
    (![20, 0, -8, -2] : Fin 4 → ℚ) 3 < 0 ∧
    (![16, 0, 0, 2] : Fin 4 → ℚ) 3 ≠ 0 := by
  have hV : validIdx ![some 20, some 12, some 18, some (-8), none, none] =
      ({0, 1, 2, 3} : Finset (Fin 6)) := by decide
  have hcost : ∀ z : Fin 4 → ℚ,
      costQ (validIdx ![some 20, some 12, some 18, some (-8), none, none])
        (yOf ![some 20, some 12, some 18, some (-8), none, none]) z =
      (z 0 + z 1 - 20)^2 + (z 0 + z 2 - 12)^2 +
      (z 0 + z 3 - 18)^2 + (z 1 + z 2 + 8)^2 := by
    intro z
    rw [hV, cost_V4_expand]
    norm_num [yOf]
  refine ⟨by decide, ?_, ⟨?_, ?_⟩, by norm_num [Matrix.cons_val_succ],
    by norm_num [Matrix.cons_val_succ]⟩
  · intro z
    rw [hcost, hcost]
    norm_num [Matrix.cons_val_succ]
    positivity
  · intro j
    fin_cases j <;> norm_num [Matrix.cons_val_succ]
  · intro z hz
    rw [hcost, hcost]
    norm_num [Matrix.cons_val_succ]
    nlinarith [sq_nonneg (z 0 + z 1 - 16), sq_nonneg (z 0 + z 2 - 16),
      sq_nonneg (z 0 + z 3 - 18), sq_nonneg (z 1 + z 2), hz 1, hz 2]
lemma expand_bump0 (y : Fin 6 → ℚ) (x : Fin 4 → ℚ) (s : ℚ) :
    costQ Finset.univ y (bump0 x s) = costQ Finset.univ y x +
      2*(3*x 0 + x 1 + x 2 + x 3 - (y 0 + y 1 + y 2)) * s + 3 * s^2 := by
  rw [cost_univ_expand, cost_univ_expand]
  simp [bump0, Matrix.cons_val_succ]
  ring
lemma expand_bump1 (y : Fin 6 → ℚ) (x : Fin 4 → ℚ) (s : ℚ) :
    costQ Finset.univ y (bump1 x s) = costQ Finset.univ y x +
      2*(x 0 + 3*x 1 + x 2 + x 3 - (y 0 + y 3 + y 4)) * s + 3 * s^2 := by
  rw [cost_univ_expand, cost_univ_expand]
  simp [bump1, Matrix.cons_val_succ]
  ring
lemma expand_bump2 (y : Fin 6 → ℚ) (x : Fin 4 → ℚ) (s : ℚ) :
    costQ Finset.univ y (bump2 x s) = costQ Finset.univ y x +
      2*(x 0 + x 1 + 3*x 2 + x 3 - (y 1 + y 3 + y 5)) * s + 3 * s^2 := by
  rw [cost_univ_expand, cost_univ_expand]
  simp [bump2, Matrix.cons_val_succ]
  ring
lemma expand_bump3 (y : Fin 6 → ℚ) (x : Fin 4 → ℚ) (s : ℚ) :
    costQ Finset.univ y (bump3 x s) = costQ Finset.univ y x +
      2*(x 0 + x 1 + x 2 + 3*x 3 - (y 2 + y 4 + y 5)) * s + 3 * s^2 := by
  rw [cost_univ_expand, cost_univ_expand]
  simp [bump3, Matrix.cons_val_succ]
  ring
lemma bump0_feas (x : Fin 4 → ℚ) (hx : ∀ j, 0 ≤ x j) (s : ℚ)
    (h0 : 0 ≤ x 0 + s) : ∀ k, 0 ≤ bump0 x s k := by
  intro k
  fin_cases k
  · simpa [bump0] using h0
  · simpa [bump0] using hx 1
  · simpa [bump0, Matrix.cons_val_succ] using hx 2
  · simpa [bump0, Matrix.cons_val_succ] using hx 3
lemma bump1_feas (x : Fin 4 → ℚ) (hx : ∀ j, 0 ≤ x j) (s : ℚ)
    (h0 : 0 ≤ x 1 + s) : ∀ k, 0 ≤ bump1 x s k := by
  intro k
  fin_cases k
  · simpa [bump1] using hx 0
  · simpa [bump1] using h0
  · simpa [bump1, Matrix.cons_val_succ] using hx 2
  · simpa [bump1, Matrix.cons_val_succ] using hx 3
lemma bump2_feas (x : Fin 4 → ℚ) (hx : ∀ j, 0 ≤ x j) (s : ℚ)
    (h0 : 0 ≤ x 2 + s) : ∀ k, 0 ≤ bump2 x s k := by
  intro k
  fin_cases k
  · simpa [bump2] using hx 0
  · simpa [bump2] using hx 1
  · simpa [bump2, Matrix.cons_val_succ] using h0
  · simpa [bump2, Matrix.cons_val_succ] using hx 3
lemma bump3_feas (x : Fin 4 → ℚ) (hx : ∀ j, 0 ≤ x j) (s : ℚ)
    (h0 : 0 ≤ x 3 + s) : ∀ k, 0 ≤ bump3 x s k := by
  intro k
  fin_cases k
  · simpa [bump3] using hx 0
  · simpa [bump3] using hx 1
  · simpa [bump3, Matrix.cons_val_succ] using hx 2
  · simpa [bump3, Matrix.cons_val_succ] using h0
/-- C3 (amended): every component of a constrained solution is nonnegative,
enforced by the feasible region of the constrained solve; and for the full
six-pair system, a channel whose unconstrained least-squares variance is
negative is recovered as exactly 0 by every nonnegative least-squares
solution.  (For reduced systems with only 4 or 5 valid pairs this exact-zero
clamping can fail, as the counterexample shows.) -/
theorem solve_jitter_nonneg_and_clamp :
    (∀ (pv : Fin 6 → Option ℚ) (x : Fin 4 → ℚ),
      IsNNLSSol (validIdx pv) (yOf pv) x → ∀ j, 0 ≤ x j) ∧
    (∀ (y : Fin 6 → ℚ) (xh xs : Fin 4 → ℚ),
      IsLSSol Finset.univ y xh → IsNNLSSol Finset.univ y xs →
      ∀ c, xh c < 0 → xs c = 0) := by
  constructor
  · intro pv x hx j
    exact hx.1 j
  · intro y xh xs hls hnn c hc
    have hE0 : 2*(3*xh 0 + xh 1 + xh 2 + xh 3 - (y 0 + y 1 + y 2)) = 0 :=
      quad3_zero_of_min _ _ _ (expand_bump0 y xh) (fun s => hls (bump0 xh s))
    have hE1 : 2*(xh 0 + 3*xh 1 + xh 2 + xh 3 - (y 0 + y 3 + y 4)) = 0 :=
      quad3_zero_of_min _ _ _ (expand_bump1 y xh) (fun s => hls (bump1 xh s))
    have hE2 : 2*(xh 0 + xh 1 + 3*xh 2 + xh 3 - (y 1 + y 3 + y 5)) = 0 :=
      quad3_zero_of_min _ _ _ (expand_bump2 y xh) (fun s => hls (bump2 xh s))
    have hE3 : 2*(xh 0 + xh 1 + xh 2 + 3*xh 3 - (y 2 + y 4 + y 5)) = 0 :=
      quad3_zero_of_min _ _ _ (expand_bump3 y xh) (fun s => hls (bump3 xh s))
    have hG0 : 0 ≤ 2*(3*xs 0 + xs 1 + xs 2 + xs 3 - (y 0 + y 1 + y 2)) :=
      quad3_nonneg_of_min _ _ _ (expand_bump0 y xs)
        (fun s hs => hnn.2 _ (bump0_feas xs hnn.1 s (by linarith [hnn.1 0])))
    have hG1 : 0 ≤ 2*(xs 0 + 3*xs 1 + xs 2 + xs 3 - (y 0 + y 3 + y 4)) :=
      quad3_nonneg_of_min _ _ _ (expand_bump1 y xs)
        (fun s hs => hnn.2 _ (bump1_feas xs hnn.1 s (by linarith [hnn.1 1])))
    have hG2 : 0 ≤ 2*(xs 0 + xs 1 + 3*xs 2 + xs 3 - (y 1 + y 3 + y 5)) :=
      quad3_nonneg_of_min _ _ _ (expand_bump2 y xs)
        (fun s hs => hnn.2 _ (bump2_feas xs hnn.1 s (by linarith [hnn.1 2])))
    have hG3 : 0 ≤ 2*(xs 0 + xs 1 + xs 2 + 3*xs 3 - (y 2 + y 4 + y 5)) :=
      quad3_nonneg_of_min _ _ _ (expand_bump3 y xs)
        (fun s hs => hnn.2 _ (bump3_feas xs hnn.1 s (by linarith [hnn.1 3])))
    fin_cases c
    · by_contra hne
      have hc2 : xh 0 < 0 := by simpa using hc
      have hxc : 0 < xs 0 := lt_of_le_of_ne (hnn.1 0) (fun h => hne h.symm)
      have hC : 2*(3*xs 0 + xs 1 + xs 2 + xs 3 - (y 0 + y 1 + y 2)) = 0 :=
        quad3_zero_of_min_cap _ _ (xs 0) _ hxc (expand_bump0 y xs)
          (fun s hs => hnn.2 _ (bump0_feas xs hnn.1 s (by linarith [hnn.1 0])))
          (fun s hs1 _ => hnn.2 _ (bump0_feas xs hnn.1 s (by linarith)))
      linarith [hnn.1 0, hnn.1 1, hnn.1 2, hnn.1 3, hc2, hxc]
    · by_contra hne
      have hc2 : xh 1 < 0 := by simpa using hc
      have hxc : 0 < xs 1 := lt_of_le_of_ne (hnn.1 1) (fun h => hne h.symm)
      have hC : 2*(xs 0 + 3*xs 1 + xs 2 + xs 3 - (y 0 + y 3 + y 4)) = 0 :=
        quad3_zero_of_min_cap _ _ (xs 1) _ hxc (expand_bump1 y xs)
          (fun s hs => hnn.2 _ (bump1_feas xs hnn.1 s (by linarith [hnn.1 1])))
          (fun s hs1 _ => hnn.2 _ (bump1_feas xs hnn.1 s (by linarith)))
      linarith [hnn.1 0, hnn.1 1, hnn.1 2, hnn.1 3, hc2, hxc]
    · by_contra hne
      have hc2 : xh 2 < 0 := by simpa using hc
      have hxc : 0 < xs 2 := lt_of_le_of_ne (hnn.1 2) (fun h => hne h.symm)
      have hC : 2*(xs 0 + xs 1 + 3*xs 2 + xs 3 - (y 1 + y 3 + y 5)) = 0 :=
        quad3_zero_of_min_cap _ _ (xs 2) _ hxc (expand_bump2 y xs)
          (fun s hs => hnn.2 _ (bump2_feas xs hnn.1 s (by linarith [hnn.1 2])))
          (fun s hs1 _ => hnn.2 _ (bump2_feas xs hnn.1 s (by linarith)))
      linarith [hnn.1 0, hnn.1 1, hnn.1 2, hnn.1 3, hc2, hxc]
    · by_contra hne
      have hc2 : xh 3 < 0 := by simpa using hc
      have hxc : 0 < xs 3 := lt_of_le_of_ne (hnn.1 3) (fun h => hne h.symm)
      have hC : 2*(xs 0 + xs 1 + xs 2 + 3*xs 3 - (y 2 + y 4 + y 5)) = 0 :=
        quad3_zero_of_min_cap _ _ (xs 3) _ hxc (expand_bump3 y xs)
          (fun s hs => hnn.2 _ (bump3_feas xs hnn.1 s (by linarith [hnn.1 3])))
          (fun s hs1 _ => hnn.2 _ (bump3_feas xs hnn.1 s (by linarith)))
      linarith [hnn.1 0, hnn.1 1, hnn.1 2, hnn.1 3, hc2, hxc]
/-- Witness for C3 (amended): for the full six-pair system with
`y = (2, 2, 0, 2, 0, 0)` the unconstrained solution `(1, 1, 1, -1)` has a
negative channel-4 variance and the nonnegative solution
`(4/5, 4/5, 4/5, 0)` recovers exactly 0 there. -/
theorem solve_jitter_nonneg_and_clamp_witness :
    IsLSSol Finset.univ ![2, 2, 0, 2, 0, 0] ![1, 1, 1, -1] ∧
    IsNNLSSol Finset.univ ![2, 2, 0, 2, 0, 0] ![4/5, 4/5, 4/5, 0] ∧
    (![1, 1, 1, -1] : Fin 4 → ℚ) 3 < 0 ∧
    (![4/5, 4/5, 4/5, 0] : Fin 4 → ℚ) 3 = 0 := by
  have hy3 : (![2, 2, 0, 2, 0, 0] : Fin 6 → ℚ) 3 = 2 := rfl
  have hy4 : (![2, 2, 0, 2, 0, 0] : Fin 6 → ℚ) 4 = 0 := rfl
  have hy5 : (![2, 2, 0, 2, 0, 0] : Fin 6 → ℚ) 5 = 0 := rfl
  have hls : IsLSSol Finset.univ ![2, 2, 0, 2, 0, 0] ![1, 1, 1, -1] := by
    intro z
    rw [cost_univ_expand, cost_univ_expand]
    norm_num [hy3, hy4, hy5, Matrix.cons_val_succ]
    positivity
  have hnn : IsNNLSSol Finset.univ ![2, 2, 0, 2, 0, 0] ![4/5, 4/5, 4/5, 0] := by
    constructor
    · intro j
      fin_cases j <;> norm_num [Matrix.cons_val_succ]
    · intro z hz
      rw [cost_univ_expand, cost_univ_expand]
      norm_num [hy3, hy4, hy5, Matrix.cons_val_succ]
      nlinarith [sq_nonneg (z 0 + z 1 - 8/5), sq_nonneg (z 0 + z 2 - 8/5),
        sq_nonneg (z 0 + z 3 - 4/5), sq_nonneg (z 1 + z 2 - 8/5),
        sq_nonneg (z 1 + z 3 - 4/5), sq_nonneg (z 2 + z 3 - 4/5), hz 3]
  exact ⟨hls, hnn, by norm_num [Matrix.cons_val_succ],
    solve_jitter_nonneg_and_clamp.2 ![2, 2, 0, 2, 0, 0] ![1, 1, 1, -1]
      ![4/5, 4/5, 4/5, 0] hls hnn 3 (by norm_num [Matrix.cons_val_succ])⟩
/-- Counterexample for C9 as stated: a run with capture files for channels
1, 2 and 3 only — channel 4 missing from the expected 4-channel stack — is
not skipped by `analyze_run`; it proceeds to the cross-channel analysis
with only a warning. -/
theorem analyze_run_incomplete_stack_cex :
    analyze_run_action [1, 2, 3] = RunAction.crossChannel ∧
    (4 : ℕ) ∉ [1, 2, 3] ∧ [1, 2, 3].length < 4 := by
  refine ⟨rfl, ?_, by norm_num⟩
  decide
/-- C9 (amended): `analyze_jitter` proceeds past data loading if and only
if all of channels 1..4 are present — a run missing any expected channel is
skipped before any cross-channel analysis; `analyze_run`, however, does not
skip incomplete multi-channel runs: any run with at least two channels
present proceeds to the cross-channel analysis with only a warning. -/
theorem analyze_missing_channel_policy (present : List ℕ) :
    (analyze_jitter_proceeds present = true ↔
      (1 ∈ present ∧ 2 ∈ present ∧ 3 ∈ present ∧ 4 ∈ present)) ∧
    (2 ≤ present.length → analyze_run_action present = RunAction.crossChannel) := by
  constructor
  · simp [analyze_jitter_proceeds]
  · intro h2
    rw [analyze_run_action]
    rw [if_neg (by
      intro hcon
      rw [List.isEmpty_iff] at hcon
      rw [hcon] at h2
      simp at h2)]
    rw [if_neg (by omega)]
/-- Witness for C9 (amended): the complete stack 1..4 passes the
`analyze_jitter` check, and a two-channel run already takes the
cross-channel path of `analyze_run`. -/
theorem analyze_missing_channel_policy_witness :
    (analyze_jitter_proceeds [1, 2, 3, 4] = true ↔
      ((1 : ℕ) ∈ [1, 2, 3, 4] ∧ (2 : ℕ) ∈ [1, 2, 3, 4] ∧
       (3 : ℕ) ∈ [1, 2, 3, 4] ∧ (4 : ℕ) ∈ [1, 2, 3, 4])) ∧
    analyze_run_action [2, 3] = RunAction.crossChannel :=
  ⟨(analyze_missing_channel_policy [1, 2, 3, 4]).1,
   (analyze_missing_channel_policy [2, 3]).2 (by norm_num)⟩
/-- Witness for C7: with no channels and one event, event 0 satisfies
neither rejection condition and lands in the clean list. -/
theorem categorize_events_partition_witness :
    0 ∈ (categorize_events [] (1/2) 1).1 := by
  have h := (categorize_events_partition [] (1/2) 1).2.2.1 0
  apply h.mpr
  refine ⟨by norm_num, ?_, ?_⟩ <;> simp
end Polarimeter
